import Mathlib

/-!
Verification of `src/rcpp_comembership.cpp` (repository TylerBackman/clusteval).

The source is a single C++ function:

  SEXP rcpp_comembership(SEXP labels) {
    Rcpp::NumericVector cluster_labels(labels);
    unsigned long n = cluster_labels.size();
    Rcpp::NumericVector comembership(n * (n-1) / 2);
    unsigned long idx_comembership = 0;
    for (unsigned long i = 0; i < n; i++) {
      for (unsigned long j = i + 1; j < n; j++) {
        if (cluster_labels[i] == cluster_labels[j]) {
          comembership[idx_comembership] = 1;
        }
        idx_comembership++;
      }
    }
    return comembership;
  }

Shallow embedding decisions, each tied to a line of the source:

* Labels are C `double`s compared with `==`.  We embed a double as `Rnum`:
  either NaN, or a (finite) value faithfully represented by a rational.
  IEEE-754 `==` on doubles is: NaN compares unequal to everything (itself
  included); non-NaN doubles compare by value, with `+0.0 == -0.0` (both map
  to the rational `0`, so the embedding preserves this).  That equality test
  is `Rnum.eq`.
* `unsigned long` is 64 bits on the platforms the package targets; unsigned
  arithmetic is arithmetic modulo `2^64`.  The allocation size expression
  `n * (n-1) / 2` is embedded bit-faithfully as `allocLen` (note `n - 1`
  wraps to `2^64 - 1` when `n = 0`, and the product then is `0`).
* `Rcpp::NumericVector comembership(len)` zero-initialises, embedded as
  `List.replicate len 0`.
* The nested loops enumerate the pairs `(i, j)`, `0 ≤ i < n`, `i+1 ≤ j < n`,
  in order; `pairs n` is that list.  The loop body is `step`, folded over
  `pairs n` with state (output buffer, running counter `idx_comembership`).
* `comembership[idx] = 1` performs no bounds check; an out-of-bounds write is
  undefined behaviour in the source (possible only when the unsigned size
  expression wraps, see claim C5) and is embedded as the no-op that
  `List.set` performs out of range.
-/

namespace Clusteval

/-- An R numeric (C `double`) as far as `==` can observe it: NaN, or a
non-NaN value represented by a rational. -/
inductive Rnum where
  | nan : Rnum
  | val : ℚ → Rnum
deriving DecidableEq, Repr

/-- IEEE-754 `==` on doubles: NaN is equal to nothing, `val`s compare by
value (source line 18, `cluster_labels[i] == cluster_labels[j]`). -/
def Rnum.eq : Rnum → Rnum → Bool
  | Rnum.val a, Rnum.val b => a == b
  | _, _ => false

/-- The modulus of `unsigned long` arithmetic (64-bit platform). -/
def W : Nat := 2 ^ 64

/-- The allocation length `n * (n-1) / 2` computed in `unsigned long`
arithmetic, as on source line 10: subtraction, multiplication and division
modulo `2^64` (division is exact in unsigned arithmetic). -/
def allocLen (n : Nat) : Nat :=
  (n % W) * ((n % W + W - 1) % W) % W / 2

/-- The inner loop of source lines 17-22 for outer index `i`: the pairs
`(i, j)` for `j = i+1, ..., n-1`, in order. -/
def rowPairs (n i : Nat) : List (Nat × Nat) :=
  (List.range' (i + 1) (n - (i + 1))).map (fun j => (i, j))

/-- The full double loop of source lines 16-23: all pairs `(i, j)` with
`i < j < n`, in the order the loops visit them. -/
def pairs (n : Nat) : List (Nat × Nat) :=
  (List.range n).flatMap (rowPairs n)

/-- One iteration of the loop body (source lines 18-21): conditionally write
`1` at the running counter, then increment the counter. -/
def step (labels : List Rnum) (st : List ℚ × Nat) (p : Nat × Nat) : List ℚ × Nat :=
  ( if Rnum.eq (labels.getD p.1 Rnum.nan) (labels.getD p.2 Rnum.nan)
      then st.1.set st.2 1
      else st.1,
    st.2 + 1 )

/-- The two nested loops, as a fold of `step` over the visited pairs. -/
def comembLoop (labels : List Rnum) (ps : List (Nat × Nat)) (st : List ℚ × Nat) :
    List ℚ × Nat :=
  ps.foldl (step labels) st

/-- The whole function `rcpp_comembership`: allocate a zeroed buffer of
length `allocLen n`, run the loops with the counter starting at `0`, return
the buffer. -/
def rcpp_comembership (labels : List Rnum) : List ℚ :=
  (comembLoop labels (pairs labels.length)
      (List.replicate (allocLen labels.length) 0, 0)).1

/-- The value the loop body writes for the pair `p` (1 on equal labels,
0 otherwise — 0 meaning "leave the zero-initialised entry"). -/
def ind (labels : List Rnum) (p : Nat × Nat) : ℚ :=
  if Rnum.eq (labels.getD p.1 Rnum.nan) (labels.getD p.2 Rnum.nan) then 1 else 0

/-- The running counter's value when the outer loop reaches row `i`: the
number of pairs the earlier rows contributed. -/
def rowStart (n i : Nat) : Nat :=
  ((List.range i).flatMap (rowPairs n)).length

/-- The linear output index of the pair `(i, j)`. -/
def linIdx (n i j : Nat) : Nat :=
  rowStart n i + (j - (i + 1))

/-- Modelled from the spec: the `CapacityOverflow` guard of §7, which the
reimplementation must add and which is absent from `rcpp_comembership.cpp`
(the source computes `n * (n-1) / 2` in unchecked unsigned arithmetic).
The guard fails before any allocation when the exact pair count exceeds the
platform's maximum representable length `maxLen`; otherwise the comembership
sequence is produced as by the source. -/
def compute_comembership_checked (maxLen : Nat) (labels : List Rnum) :
    Except String (List ℚ) :=
  let n := labels.length
  if maxLen < n * (n - 1) / 2 then
    Except.error "CapacityOverflow"
  else
    Except.ok ((pairs n).map (ind labels))

/-! ### Loop lemmas -/

/-- Setting the cell just past a prefix. -/
lemma set_at_prefix_length (l r : List ℚ) (a b : ℚ) :
    (l ++ a :: r).set l.length b = l ++ b :: r := by
  rw [List.set_append_right _ _ (Nat.le_refl _)]
  simp

/-- Running the loop over a pair list `ps`, starting with the counter at the
length of an already-filled prefix and a zeroed remainder of matching
length, fills the remainder with the indicator values, in order. -/
lemma comembLoop_spec (labels : List Rnum) :
    ∀ (ps : List (Nat × Nat)) (pre : List ℚ),
      comembLoop labels ps (pre ++ List.replicate ps.length 0, pre.length)
        = (pre ++ ps.map (ind labels), pre.length + ps.length) := by
  intro ps
  induction ps with
  | nil => intro pre; simp [comembLoop]
  | cons p ps ih =>
    intro pre
    have hstep :
        step labels (pre ++ List.replicate (p :: ps).length 0, pre.length) p
          = (pre ++ ind labels p :: List.replicate ps.length 0, pre.length + 1) := by
      simp only [step, ind, List.length_cons, List.replicate_succ]
      by_cases h : Rnum.eq (labels.getD p.1 Rnum.nan) (labels.getD p.2 Rnum.nan) = true
      · rw [if_pos h, if_pos h, set_at_prefix_length]
      · rw [if_neg h, if_neg h]
    have hpre : pre ++ ind labels p :: List.replicate ps.length 0
        = (pre ++ [ind labels p]) ++ List.replicate ps.length 0 := by
      simp
    have hlen : pre.length + 1 = (pre ++ [ind labels p]).length := by simp
    calc comembLoop labels (p :: ps) (pre ++ List.replicate (p :: ps).length 0, pre.length)
        = comembLoop labels ps ((pre ++ [ind labels p]) ++ List.replicate ps.length 0,
            (pre ++ [ind labels p]).length) := by
          simp only [comembLoop, List.foldl_cons, hstep, hpre, hlen]
      _ = ((pre ++ [ind labels p]) ++ ps.map (ind labels),
            (pre ++ [ind labels p]).length + ps.length) := ih _
      _ = (pre ++ (p :: ps).map (ind labels), pre.length + (p :: ps).length) := by
          simp [List.append_assoc]; omega

/-- The loop never changes the buffer's length. -/
lemma comembLoop_fst_length (labels : List Rnum) :
    ∀ (ps : List (Nat × Nat)) (st : List ℚ × Nat),
      (comembLoop labels ps st).1.length = st.1.length := by
  intro ps
  induction ps with
  | nil => intro st; rfl
  | cons p ps ih =>
    intro st
    rw [comembLoop, List.foldl_cons, ← comembLoop]
    rw [ih]
    simp only [step]
    split <;> simp

/-- The counter increments exactly once per visited pair. -/
lemma comembLoop_snd (labels : List Rnum) :
    ∀ (ps : List (Nat × Nat)) (st : List ℚ × Nat),
      (comembLoop labels ps st).2 = st.2 + ps.length := by
  intro ps
  induction ps with
  | nil => intro st; rfl
  | cons p ps ih =>
    intro st
    rw [comembLoop, List.foldl_cons, ← comembLoop, ih]
    simp only [step, List.length_cons]
    omega

/-- Every buffer entry after the loop was already there or is the written
constant `1`. -/
lemma comembLoop_mem (labels : List Rnum) :
    ∀ (ps : List (Nat × Nat)) (st : List ℚ × Nat) (x : ℚ),
      x ∈ (comembLoop labels ps st).1 → x ∈ st.1 ∨ x = 1 := by
  intro ps
  induction ps with
  | nil => intro st x hx; exact Or.inl hx
  | cons p ps ih =>
    intro st x hx
    rw [comembLoop, List.foldl_cons, ← comembLoop] at hx
    rcases ih _ x hx with h | h
    · simp only [step] at h
      by_cases hc : Rnum.eq (labels.getD p.1 Rnum.nan) (labels.getD p.2 Rnum.nan)
      · rw [if_pos hc] at h
        rcases List.mem_or_eq_of_mem_set h with h' | h'
        · exact Or.inl h'
        · exact Or.inr h'
      · rw [if_neg hc] at h
        exact Or.inl h
    · exact Or.inr h

/-! ### Row-start and pair-count arithmetic -/

lemma rowStart_zero (n : Nat) : rowStart n 0 = 0 := rfl

lemma rowPairs_length (n i : Nat) : (rowPairs n i).length = n - (i + 1) := by
  simp [rowPairs]

lemma rowStart_succ (n i : Nat) :
    rowStart n (i + 1) = rowStart n i + (n - (i + 1)) := by
  simp [rowStart, List.range_succ, rowPairs_length]

/-- `i * (i+1) / 2` is exact: the product of consecutive numbers is even. -/
lemma tri_two (i : Nat) : 2 * (i * (i + 1) / 2) = i * (i + 1) := by
  have h : 2 ∣ i * (i + 1) := (Nat.even_mul_succ_self i).two_dvd
  exact Nat.mul_div_cancel' h

/-- Doubled closed form of the row start, avoiding truncated division. -/
lemma rowStart_mul (n : Nat) :
    ∀ i, i ≤ n → 2 * rowStart n i + i * (i + 1) = 2 * (i * n) := by
  intro i
  induction i with
  | zero => intro _; simp [rowStart_zero]
  | succ i ih =>
    intro h
    have hi : i ≤ n := Nat.le_of_succ_le h
    have h1 := ih hi
    have h2 : (i + 1) * (i + 1 + 1) = i * (i + 1) + 2 * i + 2 := by ring
    have h3 : (i + 1) * n = i * n + n := by ring
    rw [rowStart_succ]
    omega

/-- Closed form of the row start: `i*n - i*(i+1)/2` (for `i ≤ n`). -/
lemma rowStart_closed (n i : Nat) (h : i ≤ n) :
    rowStart n i = i * n - i * (i + 1) / 2 := by
  have h1 := rowStart_mul n i h
  have h2 := tri_two i
  omega

/-- The loop visits exactly `n*(n-1)/2` pairs. -/
lemma pairs_length (n : Nat) : (pairs n).length = n * (n - 1) / 2 := by
  have h0 : (pairs n).length = rowStart n n := rfl
  have h1 := rowStart_mul n n (Nat.le_refl n)
  have hdvd : 2 ∣ n * (n - 1) := by
    have he := (Nat.even_mul_succ_self (n - 1)).two_dvd
    cases n with
    | zero => simp
    | succ m => simpa [Nat.succ_sub_one, Nat.mul_comm] using he
  have h2 : 2 * (n * (n - 1) / 2) = n * (n - 1) := Nat.mul_div_cancel' hdvd
  have h4 : n * (n + 1) = 2 * n + n * (n - 1) := by
    cases n with
    | zero => simp
    | succ m => simp [Nat.succ_sub_one]; ring
  have h5 : n * n = n + n * (n - 1) := by
    cases n with
    | zero => simp
    | succ m => simp [Nat.succ_sub_one]; ring
  rw [h0]
  omega

/-! ### Allocation length -/

/-- As long as the exact product `n*(n-1)` fits in an `unsigned long`, the
unsigned allocation size expression computes the exact pair count. -/
lemma allocLen_eq (n : Nat) (h : n * (n - 1) < W) :
    allocLen n = n * (n - 1) / 2 := by
  cases n with
  | zero => rfl
  | succ m =>
    have hW : 0 < W := by norm_num [W]
    have hn : m + 1 < W := by
      cases m with
      | zero => norm_num [W]
      | succ k =>
        calc k + 1 + 1 ≤ (k + 2) * (k + 1) := by nlinarith
          _ < W := by simpa [Nat.succ_sub_one] using h
    have h1 : (m + 1) % W = m + 1 := Nat.mod_eq_of_lt hn
    have h2 : (m + 1 + W - 1) % W = m := by
      have : m + 1 + W - 1 = W + m := by omega
      rw [this, Nat.add_mod_left, Nat.mod_eq_of_lt (by omega)]
    have h3 : (m + 1) * m % W = (m + 1) * m :=
      Nat.mod_eq_of_lt (by simpa [Nat.succ_sub_one] using h)
    simp only [allocLen, h1, h2, h3, Nat.succ_sub_one]

/-! ### Decomposition and indexing of the pair list -/

/-- Splitting the double loop after the first `i` rows. -/
lemma pairs_decomp (n i : Nat) (h : i ≤ n) :
    pairs n = (List.range i).flatMap (rowPairs n)
      ++ (List.range' i (n - i)).flatMap (rowPairs n) := by
  rw [pairs, ← List.flatMap_append]
  congr 1
  rw [List.range_eq_range', List.range_eq_range']
  have hap := List.range'_append_1 0 i (n - i)
  simp only [Nat.zero_add] at hap
  rw [hap]
  congr 1
  omega

/-- Peeling the first remaining row off the split. -/
lemma pairs_decomp_succ (n i : Nat) (h : i < n) :
    pairs n = (List.range i).flatMap (rowPairs n)
      ++ rowPairs n i
      ++ (List.range' (i + 1) (n - (i + 1))).flatMap (rowPairs n) := by
  rw [pairs_decomp n i (Nat.le_of_lt h)]
  have hsplit : n - i = (n - (i + 1)) + 1 := by omega
  rw [hsplit, List.range'_succ, List.flatMap_cons, List.append_assoc]

/-- The element of `rowPairs n i` at offset `k`. -/
lemma rowPairs_getD (n i k : Nat) (hk : k < n - (i + 1)) :
    (rowPairs n i).getD k (0, 0) = (i, i + 1 + k) := by
  have hlen : k < (rowPairs n i).length := by rw [rowPairs_length]; exact hk
  rw [List.getD_eq_getElem _ _ hlen]
  simp [rowPairs]

/-- The pair visited at linear index `linIdx n i j` is `(i, j)`. -/
lemma pairs_getD (n i j : Nat) (hij : i < j) (hj : j < n) :
    (pairs n).getD (linIdx n i j) (0, 0) = (i, j) := by
  have hi : i < n := Nat.lt_trans hij hj
  rw [pairs_decomp_succ n i hi, linIdx, List.append_assoc]
  have hlen : ((List.range i).flatMap (rowPairs n)).length = rowStart n i := rfl
  rw [List.getD_append_right _ _ _ _ (by rw [hlen]; omega), hlen]
  have hsub : rowStart n i + (j - (i + 1)) - rowStart n i = j - (i + 1) := by omega
  rw [hsub]
  have hk : j - (i + 1) < (rowPairs n i).length := by rw [rowPairs_length]; omega
  rw [List.getD_append _ _ _ _ hk, rowPairs_getD n i _ (by omega)]
  congr 1
  omega

/-- `linIdx n i j` is in bounds for `i < j < n`. -/
lemma linIdx_lt (n i j : Nat) (hij : i < j) (hj : j < n) :
    linIdx n i j < (pairs n).length := by
  have hi : i < n := Nat.lt_trans hij hj
  rw [pairs_decomp_succ n i hi]
  simp only [List.length_append]
  have hlen : ((List.range i).flatMap (rowPairs n)).length = rowStart n i := rfl
  rw [hlen, rowPairs_length, linIdx]
  omega

/-! ### The function as a map over the visited pairs -/

/-- When the allocation size is exact, the returned buffer is precisely the
indicator of each visited pair, in visiting order. -/
lemma rcpp_eq_map (labels : List Rnum)
    (h : allocLen labels.length = (pairs labels.length).length) :
    rcpp_comembership labels = (pairs labels.length).map (ind labels) := by
  have hspec := comembLoop_spec labels (pairs labels.length) []
  simp only [List.nil_append, List.length_nil, Nat.zero_add] at hspec
  rw [rcpp_comembership, h, hspec]

/-- Same, with the overflow-freedom side condition in arithmetic form. -/
lemma rcpp_eq_map_of_small (labels : List Rnum)
    (h : labels.length * (labels.length - 1) < W) :
    rcpp_comembership labels = (pairs labels.length).map (ind labels) :=
  rcpp_eq_map labels (by rw [allocLen_eq _ h, pairs_length])

/-- The output entry at the linear index of `(i, j)`: the indicator of
label equality at `i` and `j`. -/
lemma rcpp_getD (labels : List Rnum) (i j : Nat)
    (hij : i < j) (hj : j < labels.length)
    (h : labels.length * (labels.length - 1) < W) :
    (rcpp_comembership labels).getD (linIdx labels.length i j) 0
      = ind labels (i, j) := by
  rw [rcpp_eq_map_of_small labels h]
  have hlt : linIdx labels.length i j < ((pairs labels.length).map (ind labels)).length := by
    rw [List.length_map]; exact linIdx_lt _ _ _ hij hj
  rw [List.getD_eq_getElem _ _ hlt, List.getElem_map]
  congr 1
  have hlt2 : linIdx labels.length i j < (pairs labels.length).length :=
    linIdx_lt _ _ _ hij hj
  rw [← List.getD_eq_getElem (pairs labels.length) (0, 0) hlt2]
  exact pairs_getD _ _ _ hij hj

/-! ### Membership and ordering of the visited pairs -/

/-- Strict lexicographic order on index pairs: the order in which the two
nested loops visit them. -/
def lexLt (p q : Nat × Nat) : Prop := p.1 < q.1 ∨ (p.1 = q.1 ∧ p.2 < q.2)

/-- The double loop visits exactly the pairs `(i, j)` with `i < j < n`. -/
lemma mem_pairs {n : Nat} {p : Nat × Nat} : p ∈ pairs n ↔ p.1 < p.2 ∧ p.2 < n := by
  obtain ⟨i, j⟩ := p
  simp only [pairs, rowPairs, List.mem_flatMap, List.mem_range, List.mem_map,
    List.mem_range', Prod.mk.injEq]
  constructor
  · rintro ⟨a, ha, x, ⟨k, hk, rfl⟩, rfl, rfl⟩
    omega
  · rintro ⟨hij, hjn⟩
    exact ⟨i, by omega, j, ⟨j - (i + 1), by omega, by omega⟩, rfl, rfl⟩

lemma rowPairs_fst {n a : Nat} {p : Nat × Nat} (hp : p ∈ rowPairs n a) : p.1 = a := by
  simp only [rowPairs, List.mem_map] at hp
  obtain ⟨j, _, rfl⟩ := hp
  rfl

lemma rowPairs_pairwise (n a : Nat) : (rowPairs n a).Pairwise lexLt := by
  rw [rowPairs, List.pairwise_map]
  exact (List.pairwise_lt_range' _ _).imp (fun h => Or.inr ⟨rfl, h⟩)

lemma flatMap_rowPairs_pairwise (n : Nat) :
    ∀ l : List Nat, l.Pairwise (· < ·) → (l.flatMap (rowPairs n)).Pairwise lexLt := by
  intro l
  induction l with
  | nil => intro h; simp
  | cons a l ih =>
    intro h
    rw [List.pairwise_cons] at h
    rw [List.flatMap_cons, List.pairwise_append]
    refine ⟨rowPairs_pairwise n a, ih h.2, ?_⟩
    intro p hp q hq
    rw [List.mem_flatMap] at hq
    obtain ⟨b, hb, hqb⟩ := hq
    exact Or.inl (by rw [rowPairs_fst hp, rowPairs_fst hqb]; exact h.1 b hb)

/-- The loops visit the pairs in strictly increasing lexicographic order. -/
lemma pairs_pairwise (n : Nat) : (pairs n).Pairwise lexLt :=
  flatMap_rowPairs_pairwise n _ (List.pairwise_lt_range n)

/-! ### Congruence under relabeling -/

/-- `getD` through a `map`, inside the bounds. -/
lemma getD_map_lt (labels : List Rnum) (f : Rnum → Rnum) (k : Nat)
    (hk : k < labels.length) :
    (labels.map f).getD k Rnum.nan = f (labels.getD k Rnum.nan) := by
  rw [List.getD_eq_getElem _ _ (by simpa using hk), List.getD_eq_getElem _ _ hk,
    List.getElem_map]

lemma getD_mem (labels : List Rnum) (k : Nat) (hk : k < labels.length) :
    labels.getD k Rnum.nan ∈ labels := by
  rw [List.getD_eq_getElem _ _ hk]
  exact List.getElem_mem hk

/-- Two label vectors whose equality tests agree on every visited pair
drive the loop identically. -/
lemma comembLoop_congr (labels labels' : List Rnum) :
    ∀ (ps : List (Nat × Nat)) (st : List ℚ × Nat),
      (∀ p ∈ ps, Rnum.eq (labels'.getD p.1 Rnum.nan) (labels'.getD p.2 Rnum.nan)
          = Rnum.eq (labels.getD p.1 Rnum.nan) (labels.getD p.2 Rnum.nan)) →
      comembLoop labels' ps st = comembLoop labels ps st := by
  intro ps
  induction ps with
  | nil => intro st h; rfl
  | cons p ps ih =>
    intro st h
    calc comembLoop labels' (p :: ps) st
        = comembLoop labels' ps (step labels' st p) := rfl
      _ = comembLoop labels ps (step labels' st p) :=
          ih _ (fun q hq => h q (List.mem_cons_of_mem p hq))
      _ = comembLoop labels ps (step labels st p) := by
          have hp := h p (List.mem_cons_self p ps)
          simp only [step, hp]
      _ = comembLoop labels (p :: ps) st := rfl

/-! ### Claim theorems -/

/-- Claim C1: for every input label sequence (whose pair count does not
overflow the 64-bit unsigned size arithmetic, the regime the spec declares
undefined and claim C5 covers) and every pair of positions `i < j`, the
output element at the linear index of `(i, j)` is in bounds and equals `1`
if `labels[i] == labels[j]` under exact (IEEE `==`) equality, else `0`. -/
theorem c1_indicator (labels : List Rnum) (i j : Nat)
    (hij : i < j) (hj : j < labels.length)
    (h : labels.length * (labels.length - 1) < W) :
    linIdx labels.length i j < (rcpp_comembership labels).length
      ∧ (rcpp_comembership labels).getD (linIdx labels.length i j) 0
        = (if Rnum.eq (labels.getD i Rnum.nan) (labels.getD j Rnum.nan)
            then (1 : ℚ) else 0) := by
  constructor
  · rw [rcpp_eq_map_of_small labels h, List.length_map]
    exact linIdx_lt _ _ _ hij hj
  · exact rcpp_getD labels i j hij hj h

/-- Witness for C1 at `labels = [5, 5]`, `i = 0`, `j = 1`. -/
theorem c1_indicator_witness :
    (0 : Nat) < 1 ∧ (1 : Nat) < ([Rnum.val 5, Rnum.val 5] : List Rnum).length
      ∧ ([Rnum.val 5, Rnum.val 5] : List Rnum).length
          * (([Rnum.val 5, Rnum.val 5] : List Rnum).length - 1) < W
      ∧ (linIdx ([Rnum.val 5, Rnum.val 5] : List Rnum).length 0 1
            < (rcpp_comembership [Rnum.val 5, Rnum.val 5]).length
          ∧ (rcpp_comembership [Rnum.val 5, Rnum.val 5]).getD
              (linIdx ([Rnum.val 5, Rnum.val 5] : List Rnum).length 0 1) 0
            = (if Rnum.eq (([Rnum.val 5, Rnum.val 5] : List Rnum).getD 0 Rnum.nan)
                  (([Rnum.val 5, Rnum.val 5] : List Rnum).getD 1 Rnum.nan)
                then (1 : ℚ) else 0)) :=
  ⟨by decide, by decide, by decide,
    c1_indicator [Rnum.val 5, Rnum.val 5] 0 1 (by decide) (by decide) (by decide)⟩

/-- Claim C2: for every input (within the non-overflowing regime, cf. C5)
the output length is exactly `n*(n-1)/2`; for `n ≤ 1` the output is the
empty sequence, and the loops never visit a diagonal pair `(i, i)`. -/
theorem c2_output_length (labels : List Rnum)
    (h : labels.length * (labels.length - 1) < W) :
    (rcpp_comembership labels).length = labels.length * (labels.length - 1) / 2
      ∧ (labels.length ≤ 1 → rcpp_comembership labels = [])
      ∧ ∀ i : Nat, (i, i) ∉ pairs labels.length := by
  have hlen : (rcpp_comembership labels).length = allocLen labels.length := by
    rw [rcpp_comembership, comembLoop_fst_length]
    exact List.length_replicate _ _
  refine ⟨?_, ?_, ?_⟩
  · rw [hlen, allocLen_eq _ h]
  · intro h1
    apply List.eq_nil_of_length_eq_zero
    rw [hlen, allocLen_eq _ h]
    rcases Nat.le_one_iff_eq_zero_or_eq_one.mp h1 with h2 | h2 <;> rw [h2]
  · intro i hi
    rw [mem_pairs] at hi
    omega

/-- Witness for C2 at `labels = [1, 1, 2]`. -/
theorem c2_output_length_witness :
    ([Rnum.val 1, Rnum.val 1, Rnum.val 2] : List Rnum).length
        * (([Rnum.val 1, Rnum.val 1, Rnum.val 2] : List Rnum).length - 1) < W
      ∧ ((rcpp_comembership [Rnum.val 1, Rnum.val 1, Rnum.val 2]).length
            = ([Rnum.val 1, Rnum.val 1, Rnum.val 2] : List Rnum).length
              * (([Rnum.val 1, Rnum.val 1, Rnum.val 2] : List Rnum).length - 1) / 2
          ∧ (([Rnum.val 1, Rnum.val 1, Rnum.val 2] : List Rnum).length ≤ 1 →
              rcpp_comembership [Rnum.val 1, Rnum.val 1, Rnum.val 2] = [])
          ∧ ∀ i : Nat, (i, i) ∉ pairs ([Rnum.val 1, Rnum.val 1, Rnum.val 2] : List Rnum).length) :=
  ⟨by decide, c2_output_length [Rnum.val 1, Rnum.val 1, Rnum.val 2] (by decide)⟩

/-- Claim C3: the loops visit the pairs in strictly increasing
lexicographic (canonical) order `(0,1), (0,2), ..., (n-2,n-1)`; they visit
exactly the pairs `i < j < n`; and the running counter, started at `0`,
increments once per pair, so after `k` visited pairs it equals `k`. -/
theorem c3_canonical_order (labels : List Rnum) :
    (pairs labels.length).Pairwise lexLt
      ∧ (∀ p : Nat × Nat, p ∈ pairs labels.length ↔ p.1 < p.2 ∧ p.2 < labels.length)
      ∧ ∀ k : Nat,
          (comembLoop labels ((pairs labels.length).take k)
              (List.replicate (allocLen labels.length) 0, 0)).2
            = min k (pairs labels.length).length := by
  refine ⟨pairs_pairwise _, fun p => mem_pairs, fun k => ?_⟩
  rw [comembLoop_snd]
  simp [List.length_take]

/-- Claim C4: every output element is exactly `0` or exactly `1`: the
buffer starts zeroed and the loop body only ever writes the constant `1`. -/
theorem c4_zero_or_one (labels : List Rnum) (x : ℚ)
    (hx : x ∈ rcpp_comembership labels) : x = 0 ∨ x = 1 := by
  rcases comembLoop_mem labels _ _ x hx with h | h
  · exact Or.inl (List.eq_of_mem_replicate h)
  · exact Or.inr h

/-- Witness for C4: the value `1` occurs in the output for `[5, 5]`. -/
theorem c4_zero_or_one_witness :
    (1 : ℚ) ∈ rcpp_comembership [Rnum.val 5, Rnum.val 5]
      ∧ ((1 : ℚ) = 0 ∨ (1 : ℚ) = 1) :=
  ⟨by decide, c4_zero_or_one [Rnum.val 5, Rnum.val 5] 1 (by decide)⟩

/-- Claim C5 is false of the source: the allocation size `n*(n-1)/2` is
computed in unchecked 64-bit unsigned arithmetic (source line 10), so at
`n = 2^32 + 1` it silently wraps to `2^31`, strictly below the exact pair
count `2^63 + 2^31`; no overflow error exists anywhere in the function. -/
theorem c5_no_overflow_check_counterexample :
    allocLen (2 ^ 32 + 1) = 2 ^ 31
      ∧ allocLen (2 ^ 32 + 1) < (2 ^ 32 + 1) * ((2 ^ 32 + 1) - 1) / 2 := by
  constructor <;> decide

/-- Claim C5 (amended): the explicit pre-allocation overflow failure is the
reimplementation's obligation (spec §7), not the source's behaviour. The
checked variant modelled from the spec fails hard with `CapacityOverflow`,
before any allocation and producing no partial result, whenever the exact
pair count exceeds the platform's maximum representable length; the source
itself silently wraps (see the counterexample). -/
theorem c5_checked_overflow (maxLen : Nat) (labels : List Rnum)
    (h : maxLen < labels.length * (labels.length - 1) / 2) :
    compute_comembership_checked maxLen labels
      = Except.error "CapacityOverflow" := by
  simp only [compute_comembership_checked]
  rw [if_pos h]

/-- Witness for the amended C5 at `maxLen = 0`, `labels = [5, 7]`. -/
theorem c5_checked_overflow_witness :
    (0 < ([Rnum.val 5, Rnum.val 7] : List Rnum).length
        * (([Rnum.val 5, Rnum.val 7] : List Rnum).length - 1) / 2)
      ∧ compute_comembership_checked 0 [Rnum.val 5, Rnum.val 7]
          = Except.error "CapacityOverflow" :=
  ⟨by decide, c5_checked_overflow 0 [Rnum.val 5, Rnum.val 7] (by decide)⟩

/-- Claim C6: relabeling the label values by any map that preserves the
pairwise equality partition of the input leaves the comembership output
unchanged. -/
theorem c6_relabel_invariant (labels : List Rnum) (f : Rnum → Rnum)
    (hf : ∀ a ∈ labels, ∀ b ∈ labels, Rnum.eq (f a) (f b) = Rnum.eq a b) :
    rcpp_comembership (labels.map f) = rcpp_comembership labels := by
  have hlen : (labels.map f).length = labels.length := by simp
  rw [rcpp_comembership, rcpp_comembership, hlen]
  have hcond : ∀ p ∈ pairs labels.length,
      Rnum.eq ((labels.map f).getD p.1 Rnum.nan) ((labels.map f).getD p.2 Rnum.nan)
        = Rnum.eq (labels.getD p.1 Rnum.nan) (labels.getD p.2 Rnum.nan) := by
    intro p hp
    rw [mem_pairs] at hp
    have h1 : p.1 < labels.length := Nat.lt_trans hp.1 hp.2
    have h2 : p.2 < labels.length := hp.2
    rw [getD_map_lt labels f p.1 h1, getD_map_lt labels f p.2 h2]
    exact hf _ (getD_mem labels p.1 h1) _ (getD_mem labels p.2 h2)
  exact congrArg Prod.fst (comembLoop_congr labels (labels.map f) _ _ hcond)

/-- Witness for C6: swapping the label values `1` and `2` throughout
`[1, 2, 1]` preserves the partition and the output. -/
theorem c6_relabel_invariant_witness :
    rcpp_comembership (([Rnum.val 1, Rnum.val 2, Rnum.val 1] : List Rnum).map
        (fun a => if a = Rnum.val 1 then Rnum.val 2
          else if a = Rnum.val 2 then Rnum.val 1 else a))
      = rcpp_comembership [Rnum.val 1, Rnum.val 2, Rnum.val 1] :=
  c6_relabel_invariant [Rnum.val 1, Rnum.val 2, Rnum.val 1]
    (fun a => if a = Rnum.val 1 then Rnum.val 2
      else if a = Rnum.val 2 then Rnum.val 1 else a)
    (by intro a ha b hb; fin_cases ha <;> fin_cases hb <;> decide)

/-- Claim C7: the function is deterministic and pure: it is a function of
the input label sequence alone, so two calls on identical inputs return
identical outputs (and in this embedding the input is immutable, matching
the read-only input of the source). -/
theorem c7_pure (l1 l2 : List Rnum) (h : l1 = l2) :
    rcpp_comembership l1 = rcpp_comembership l2 := by
  rw [h]

/-- Witness for C7 at `labels = [5]`. -/
theorem c7_pure_witness :
    ([Rnum.val 5] : List Rnum) = [Rnum.val 5]
      ∧ rcpp_comembership [Rnum.val 5] = rcpp_comembership [Rnum.val 5] :=
  ⟨rfl, c7_pure [Rnum.val 5] [Rnum.val 5] rfl⟩

/-- Claim C8 is false as stated: at `n = 3`, `i = 1` the running counter at
the start of row 1 is `2` (pairs `(0,1)` and `(0,2)` precede it), but the
spec's closed form `i*n - i*(i+1)/2 - i` evaluates to `1`; accordingly the
pair at linear index `1` is `(0, 2)`, not the first pair `(1, 2)` of row 1. -/
theorem c8_closed_form_counterexample :
    rowStart 3 1 ≠ 1 * 3 - 1 * (1 + 1) / 2 - 1
      ∧ (pairs 3).getD (1 * 3 - 1 * (1 + 1) / 2 - 1) (0, 0) ≠ (1, 1 + 1) := by
  constructor <;> decide

/-- Claim C8 (amended): the counter value at the start of row `i` is
`i*n - i*(i+1)/2` — the spec's formula carries a spurious final `- i` — and
whenever row `i` is nonempty this is exactly the linear index at which its
first pair `(i, i+1)` is visited. -/
theorem c8_row_start_closed (n i : Nat) (h : i ≤ n) :
    rowStart n i = i * n - i * (i + 1) / 2
      ∧ (i + 1 < n → (pairs n).getD (rowStart n i) (0, 0) = (i, i + 1)) := by
  refine ⟨rowStart_closed n i h, fun hin => ?_⟩
  have hg := pairs_getD n i (i + 1) (Nat.lt_succ_self i) hin
  simpa [linIdx] using hg

/-- Witness for the amended C8 at `n = 4`, `i = 1`. -/
theorem c8_row_start_closed_witness :
    (1 : Nat) ≤ 4
      ∧ (rowStart 4 1 = 1 * 4 - 1 * (1 + 1) / 2
          ∧ (1 + 1 < 4 → (pairs 4).getD (rowStart 4 1) (0, 0) = (1, 1 + 1))) :=
  ⟨by decide, c8_row_start_closed 4 1 (by decide)⟩

/-- Claim C9: all writes are in bounds — before each of the `n*(n-1)/2`
writes the running counter is strictly below the allocated buffer length —
and after both loops the counter equals exactly `n*(n-1)/2`, so each output
position is written past exactly once (within the non-overflowing regime,
cf. C5). -/
theorem c9_writes_in_bounds (labels : List Rnum)
    (h : labels.length * (labels.length - 1) < W) :
    (∀ k : Nat, k < (pairs labels.length).length →
        (comembLoop labels ((pairs labels.length).take k)
            (List.replicate (allocLen labels.length) 0, 0)).2
          < (List.replicate (allocLen labels.length) (0 : ℚ)).length)
      ∧ (comembLoop labels (pairs labels.length)
            (List.replicate (allocLen labels.length) 0, 0)).2
          = labels.length * (labels.length - 1) / 2 := by
  have hal : allocLen labels.length = labels.length * (labels.length - 1) / 2 :=
    allocLen_eq _ h
  have hplen := pairs_length labels.length
  constructor
  · intro k hk
    rw [comembLoop_snd]
    simp only [List.length_take, List.length_replicate, hal]
    omega
  · rw [comembLoop_snd, pairs_length]
    simp

/-- Witness for C9 at `labels = [5, 7]`, `k = 0`. -/
theorem c9_writes_in_bounds_witness :
    ([Rnum.val 5, Rnum.val 7] : List Rnum).length
        * (([Rnum.val 5, Rnum.val 7] : List Rnum).length - 1) < W
      ∧ ((∀ k : Nat, k < (pairs ([Rnum.val 5, Rnum.val 7] : List Rnum).length).length →
            (comembLoop [Rnum.val 5, Rnum.val 7]
                ((pairs ([Rnum.val 5, Rnum.val 7] : List Rnum).length).take k)
                (List.replicate (allocLen ([Rnum.val 5, Rnum.val 7] : List Rnum).length) 0, 0)).2
              < (List.replicate (allocLen ([Rnum.val 5, Rnum.val 7] : List Rnum).length) (0 : ℚ)).length)
          ∧ (comembLoop [Rnum.val 5, Rnum.val 7]
                (pairs ([Rnum.val 5, Rnum.val 7] : List Rnum).length)
                (List.replicate (allocLen ([Rnum.val 5, Rnum.val 7] : List Rnum).length) 0, 0)).2
              = ([Rnum.val 5, Rnum.val 7] : List Rnum).length
                * (([Rnum.val 5, Rnum.val 7] : List Rnum).length - 1) / 2) :=
  ⟨by decide, c9_writes_in_bounds [Rnum.val 5, Rnum.val 7] (by decide)⟩

/-- Claim C10: a NaN label is never a comember of any observation, another
NaN included: when `labels[i]` and `labels[j]` are both NaN, the IEEE `==`
of source line 18 is false and the output element for `(i, j)` stays `0`. -/
theorem c10_nan_never_comember (labels : List Rnum) (i j : Nat)
    (hij : i < j) (hj : j < labels.length)
    (h : labels.length * (labels.length - 1) < W)
    (hni : labels.getD i Rnum.nan = Rnum.nan)
    (hnj : labels.getD j Rnum.nan = Rnum.nan) :
    (rcpp_comembership labels).getD (linIdx labels.length i j) 0 = 0 := by
  have hv := rcpp_getD labels i j hij hj h
  rw [hv, ind, hni, hnj]
  rfl

/-- Witness for C10 at `labels = [NaN, NaN]`. -/
theorem c10_nan_never_comember_witness :
    (0 : Nat) < 1 ∧ (1 : Nat) < ([Rnum.nan, Rnum.nan] : List Rnum).length
      ∧ ([Rnum.nan, Rnum.nan] : List Rnum).length
          * (([Rnum.nan, Rnum.nan] : List Rnum).length - 1) < W
      ∧ ([Rnum.nan, Rnum.nan] : List Rnum).getD 0 Rnum.nan = Rnum.nan
      ∧ ([Rnum.nan, Rnum.nan] : List Rnum).getD 1 Rnum.nan = Rnum.nan
      ∧ (rcpp_comembership [Rnum.nan, Rnum.nan]).getD
          (linIdx ([Rnum.nan, Rnum.nan] : List Rnum).length 0 1) 0 = 0 :=
  ⟨by decide, by decide, by decide, by decide, by decide,
    c10_nan_never_comember [Rnum.nan, Rnum.nan] 0 1
      (by decide) (by decide) (by decide) (by decide) (by decide)⟩

end Clusteval
